import Mathlib

/-!
Verification of the reactive micro-store (react-microstore).

This file shallowly embeds the core of `src/index.ts`: the store state
record, the per-key subscription index, the equality registry
(`skipSetWhen`), the batching controller, the middleware chain of `set`,
the persistence middleware, and the debounce-variant commit path.

Modelling conventions:
* JavaScript values are modelled by the inductive type `Value`.  Numbers
  are `Int` (with `nan` and `negZero` as separate constructors so that
  `Object.is` and `===` can disagree exactly where they do in JS);
  objects are modelled by their identity (`obj id`) because the store
  only ever compares them by reference.
* The state object and all of the store's string-keyed tables are
  association lists in insertion order, mirroring JS object/Map/Set
  iteration order.
* Listeners are opaque callbacks in the source; they are modelled by
  numeric identities, and an invocation of a listener is an element of
  an output trace (`List Nat`).
* A middleware callback is modelled by the observable behaviour of one
  invocation (`MwAction`): the sequence of `next(...)` calls it makes,
  whether it throws after those calls, and the storage writes it
  performs.  A synchronous throw before any effective `next` call is
  `nextCalls = []` with `throwsAfter = true`; since `set` catches every
  interceptor throw, a throw never escapes and is represented by data,
  not by an exception type.
-/

/-- Field names of the state record. -/
abbrev Key := String

/-- JavaScript runtime values, as far as the store observes them. -/
inductive Value where
  | num (n : Int)
  | nan
  | negZero
  | str (s : String)
  | bool (b : Bool)
  | undef
  | obj (id : Nat)
deriving DecidableEq, Repr

/-- The state record and partial updates: string-keyed association lists
in property insertion order. -/
abbrev StateRec := List (Key × Value)

/-- A pending partial update (`Partial<T>`). -/
abbrev Update := List (Key × Value)

/-- Reading a property: first entry with the key, `undefined` if absent. -/
def lookupA {α : Type} : List (Key × α) → Key → Option α
  | [], _ => none
  | (k', a) :: rest, k => if k' = k then some a else lookupA rest k

/-- Assigning a property: overwrite in place, or append a new entry. -/
def setA {α : Type} : List (Key × α) → Key → α → List (Key × α)
  | [], k, a => [(k, a)]
  | (k', a') :: rest, k, a =>
    if k' = k then (k, a) :: rest else (k', a') :: setA rest k a

/-- Reading a field of the state record (`state[key]`). -/
def lookupV (st : StateRec) (k : Key) : Value :=
  (lookupA st k).getD Value.undef

/-- The `key in update` test of JavaScript. -/
def hasKey (upd : Update) (k : Key) : Bool :=
  upd.any (fun e => e.1 = k)

/-- Identity comparison `Object.is`: structural equality of `Value`
(`NaN` equals `NaN`, and `-0` is distinct from `+0`). -/
def objectIs (a b : Value) : Bool :=
  decide (a = b)

/-- Strict equality `===`: like `Object.is` except `NaN === NaN` is
false and `-0 === +0` is true. -/
def strictEq : Value → Value → Bool
  | Value.nan, _ => false
  | _, Value.nan => false
  | Value.negZero, Value.num n => decide (n = 0)
  | Value.num n, Value.negZero => decide (n = 0)
  | a, b => decide (a = b)

/-- The per-key subscription index: field name to listeners, in
subscription order (a JS `Set` iterated in insertion order). -/
abbrev KeyListeners := List (Key × List Nat)

/-- Listeners registered for a key (`keyListeners[key]`, empty when the
key has no subscriber set). -/
def listenersOf (ls : KeyListeners) (k : Key) : List Nat :=
  (lookupA ls k).getD []

/-- The observable behaviour of one middleware invocation. -/
structure MwAction where
  /-- The arguments of the `next(...)` calls the callback makes, in
  order; `none` is a call with no replacement payload. -/
  nextCalls : List (Option Update)
  /-- Whether the callback throws after the listed `next` calls (a throw
  before any call is `nextCalls = []` with this flag set). -/
  throwsAfter : Bool
  /-- The `storage.setItem(key, value)` calls the callback performs. -/
  writes : List (String × String)

/-- A registered middleware entry: callback plus optional field filter.
The `id` is an inert label used only to observe which interceptors were
invoked. -/
structure Mw where
  id : Nat
  act : StateRec → Update → MwAction
  keys : Option (List Key)

/-- The check `!currentMiddleware.keys || currentMiddleware.keys.some(key => key in currentUpdate)`. -/
def mwApplicable (mw : Mw) (upd : Update) : Bool :=
  match mw.keys with
  | none => true
  | some ks => ks.any (fun k => hasKey upd k)

/-- The outcome of running a chain (or a whole `set`): final store,
listener invocations, invoked interceptor ids, and storage writes. -/
structure ChainOut (σ : Type) where
  store : σ
  notifs : List Nat
  invoked : List Nat
  writes : List (String × String)
deriving Repr

/-- The body of the `next` closure: each call is guarded by the
`nextCalled` flag; the first effective call runs the remainder of the
chain (`run`), every further call returns immediately.  Returns the
accumulated outcome and the final value of `nextCalled`. -/
def processCalls {σ : Type} (origUpd : Update) (run : Update → σ → ChainOut σ) :
    List (Option Update) → σ → Bool → ChainOut σ × Bool
  | [], s, called => (⟨s, [], [], []⟩, called)
  | c :: cs, s, called =>
    if called then processCalls origUpd run cs s called
    else
      let r := run (c.getD origUpd) s
      let rec2 := processCalls origUpd run cs r.store true
      (⟨rec2.1.store, r.notifs ++ rec2.1.notifs, r.invoked ++ rec2.1.invoked,
        r.writes ++ rec2.1.writes⟩, rec2.2)

/-- The `runMiddleware` recursion of `set`, generic in the store type
and the commit function so that it serves both source variants (whose
chain code is identical).  At each stage: a filtered interceptor whose
filter misses the current update is skipped with the update unchanged;
otherwise the callback runs, and if it never effectively calls `next`
(including when it throws first) the write is dropped with no state
change and no notification — the throw is caught at the chain level and
never re-raised. -/
def runChain {σ : Type} (commit : σ → Update → σ × List Nat) (getSt : σ → StateRec) :
    List Mw → Update → σ → ChainOut σ
  | [], upd, s =>
    let p := commit s upd
    ⟨p.1, p.2, [], []⟩
  | mw :: rest, upd, s =>
    if mwApplicable mw upd then
      let a := mw.act (getSt s) upd
      let pr := processCalls upd (fun u s' => runChain commit getSt rest u s') a.nextCalls s false
      if pr.2 then ⟨pr.1.store, pr.1.notifs, mw.id :: pr.1.invoked, a.writes ++ pr.1.writes⟩
      else ⟨s, [], [mw.id], a.writes⟩
    else runChain commit getSt rest upd s

/-- A store instance of the main variant: state record, subscription
index, equality registry, batching accumulator and middleware list. -/
structure Store where
  state : StateRec
  keyListeners : KeyListeners
  eqReg : List (Key × (Value → Value → Bool))
  batchedKeys : Option (List Key)
  mws : List Mw

/-- The registered custom equality test for a key, applied as in
`eq && eq(state[key], next[key])`. -/
def skipByEq (reg : List (Key × (Value → Value → Bool))) (k : Key) (a b : Value) : Bool :=
  match lookupA reg k with
  | none => false
  | some f => f a b

/-- Phase 1 of `applyUpdate`: walk the update in property order,
skipping fields whose new value is `Object.is`-identical to the current
one or declared unchanged by a registered equality predicate, assigning
the rest; returns the mutated state and the changed keys in order. -/
def computeChanged (reg : List (Key × (Value → Value → Bool))) :
    StateRec → Update → StateRec × List Key
  | st, [] => (st, [])
  | st, (k, v) :: rest =>
    if objectIs (lookupV st k) v then computeChanged reg st rest
    else if skipByEq reg k (lookupV st k) v then computeChanged reg st rest
    else
      let p := computeChanged reg (setA st k v) rest
      (p.1, k :: p.2)

/-- The `Set.add` of `batchedKeys` (insertion order, no duplicates). -/
def addUnique (l : List Key) (k : Key) : List Key :=
  if k ∈ l then l else l ++ [k]

/-- One `forEach` over a key's listener set against a `notified` set:
returns the grown `notified` set and the listeners invoked here. -/
def dedupStep (notified : List Nat) : List Nat → List Nat × List Nat
  | [] => (notified, [])
  | l :: rest =>
    if l ∈ notified then dedupStep notified rest
    else
      let p := dedupStep (notified ++ [l]) rest
      (p.1, l :: p.2)

/-- Notification with cross-key deduplication by listener identity. -/
def notifyKeysDedup (ls : KeyListeners) : List Key → List Nat → List Nat
  | [], _ => []
  | k :: ks, notified =>
    let p := dedupStep notified (listenersOf ls k)
    p.2 ++ notifyKeysDedup ls ks p.1

/-- The commit routine `applyUpdate` of the main variant: phase 1 diffs
and mutates the state, then, if anything changed, either accumulates the
changed keys into an active batch or notifies listeners (single-key fast
path, or deduplicated across several keys). -/
def Store.applyUpdate (s : Store) (upd : Update) : Store × List Nat :=
  let p := computeChanged s.eqReg s.state upd
  let s1 : Store := { s with state := p.1 }
  match p.2 with
  | [] => (s1, [])
  | ch =>
    match s.batchedKeys with
    | some bk => ({ s1 with batchedKeys := some (ch.foldl addUnique bk) }, [])
    | none =>
      match ch with
      | [k] => (s1, listenersOf s.keyListeners k)
      | _ => (s1, notifyKeysDedup s.keyListeners ch [])

/-- The helper `notifyKey`: defer into an active batch, else fire the
key's listeners. -/
def Store.notifyKey (s : Store) (k : Key) : Store × List Nat :=
  match s.batchedKeys with
  | some bk => ({ s with batchedKeys := some (addUnique bk k) }, [])
  | none => (s, listenersOf s.keyListeners k)

/-- The direct single-key commit `applySingleKey` used by `setKey` when
no middleware is registered. -/
def Store.applySingleKey (s : Store) (k : Key) (v : Value) : Store × List Nat :=
  if objectIs (lookupV s.state k) v then (s, [])
  else if skipByEq s.eqReg k (lookupV s.state k) v then (s, [])
  else Store.notifyKey { s with state := setA s.state k v } k

/-- The public `set`: bypass the chain when no middleware is registered,
else run the middleware chain ending in `applyUpdate`. -/
def Store.set (s : Store) (upd : Update) : ChainOut Store :=
  if s.mws.isEmpty then
    let p := s.applyUpdate upd
    ⟨p.1, p.2, [], []⟩
  else runChain Store.applyUpdate Store.state s.mws upd s

/-- The public `setKey`: direct single-key path without middleware, else
a `set` of the singleton update. -/
def Store.setKey (s : Store) (k : Key) (v : Value) : ChainOut Store :=
  if s.mws.isEmpty then
    let p := s.applySingleKey k v
    ⟨p.1, p.2, [], []⟩
  else s.set [(k, v)]

/-- The `skipSetWhen` registration: store a custom equality predicate
for exactly one field. -/
def Store.skipSetWhen (s : Store) (k : Key) (f : Value → Value → Bool) : Store :=
  { s with eqReg := setA s.eqReg k f }

/-- Operations a batch body may issue against the store.  The body is
modelled as the sequence of store operations it performs; a body that
throws midway is the executed prefix together with `raises = true` in
`Store.batch`. -/
inductive Op where
  | setU (upd : Update)
  | setK (k : Key) (v : Value)

/-- Executing one operation of a batch body (only the store and the
listener invocations are observed). -/
def Store.execOp (s : Store) : Op → Store × List Nat
  | Op.setU u =>
    let r := s.set u
    (r.store, r.notifs)
  | Op.setK k v =>
    let r := s.setKey k v
    (r.store, r.notifs)

/-- Running a batch body: the operations in order, concatenating
listener invocations. -/
def Store.runOps : Store → List Op → Store × List Nat
  | s, [] => (s, [])
  | s, op :: rest =>
    let p := s.execOp op
    let q := Store.runOps p.1 rest
    (q.1, p.2 ++ q.2)

/-- The `batch` entry point.  `raises` says whether the body throws
after its executed operations; the returned flag says whether `batch`
re-raises to its caller.  A nested call (batching already active) runs
the body inline; the outermost call initialises the accumulation set,
runs the body, and in a `finally` block clears the accumulator and
delivers one notification per distinct listener of the accumulated
keys — then the body's error, if any, continues to propagate. -/
def Store.batch (s : Store) (ops : List Op) (raises : Bool) : Store × List Nat × Bool :=
  match s.batchedKeys with
  | some _ =>
    let p := Store.runOps s ops
    (p.1, p.2, raises)
  | none =>
    let p := Store.runOps { s with batchedKeys := some [] } ops
    let acc := p.1.batchedKeys.getD []
    let flush := notifyKeysDedup p.1.keyListeners acc []
    ({ p.1 with batchedKeys := none }, p.2 ++ flush, raises)

/-- The serialization `JSON.stringify` restricted to the values the
model distinguishes.  Object contents are not modelled (`Value.obj`
carries only an identity), so objects serialize to an opaque literal;
string escaping is not modelled either.  `JSON.stringify(undefined)`
is `undefined`, which `setItem` coerces to the string below. -/
def jsonStringify : Value → String
  | Value.num n => toString n
  | Value.nan => "null"
  | Value.negZero => "0"
  | Value.str s => "\"" ++ s ++ "\""
  | Value.bool b => if b then "true" else "false"
  | Value.undef => "undefined"
  | Value.obj _ => "\x7b\x7d"

/-- The middleware callback produced by `createPersistenceMiddleware`:
filter the persisted keys down to those present in the update; if none,
just `next()`; otherwise attempt one `setItem` per present key (key
`"{persistKey}:{field}"`, value `JSON.stringify(update[field])`) and
then `next()`.  `fails` says which storage keys make `setItem` throw;
the surrounding `try`/`catch` turns such a throw into a console warning
and continues the loop, so `fails` influences nothing observable. -/
def persistAct (persistKey : String) (pkeys : List Key) (fails : String → Bool)
    (st : StateRec) (upd : Update) : MwAction :=
  let changedKeys := pkeys.filter (fun k => hasKey upd k)
  if changedKeys.isEmpty then { nextCalls := [none], throwsAfter := false, writes := [] }
  else
    { nextCalls := [none], throwsAfter := false,
      writes := changedKeys.map (fun k =>
        (persistKey ++ ":" ++ k, jsonStringify ((lookupA upd k).getD Value.undef))) }

/-- The tuple returned by `createPersistenceMiddleware` as installed by
`addMiddleware`: the callback above, filtered to the persisted keys. -/
def persistEntry (mid : Nat) (persistKey : String) (pkeys : List Key)
    (fails : String → Bool) : Mw :=
  ⟨mid, persistAct persistKey pkeys fails, some pkeys⟩

/-- The debounce argument of the debounce variant's `set`:
`false` (immediate), `true` (debounce with zero delay) or a number. -/
inductive DebounceArg where
  | fls
  | tru
  | num (n : Nat)
deriving DecidableEq

/-- The numeric delay of a debounce argument
(`typeof debounceDelay === 'number' ? debounceDelay : 0`). -/
def DebounceArg.delay : DebounceArg → Nat
  | DebounceArg.fls => 0
  | DebounceArg.tru => 0
  | DebounceArg.num n => n

/-- A store instance of the debounce variant.  `notifierDelay` is the
memoised `debouncedNotifiers` map: each key's notifier closure is
created once, capturing the delay of the first debounced write to that
key.  `pending` maps a key to the delay of its currently armed
trailing-edge timer. -/
structure DStore where
  state : StateRec
  keyListeners : KeyListeners
  notifierDelay : List (Key × Nat)
  pending : List (Key × Nat)
  mws : List Mw

/-- Phase 1 of the debounce variant's `applyUpdate`: a field is skipped
when `===` holds, and assigned only when `Object.is` also fails. -/
def computeChangedD : StateRec → Update → StateRec × List Key
  | st, [] => (st, [])
  | st, (k, v) :: rest =>
    if strictEq (lookupV st k) v then computeChangedD st rest
    else if objectIs (lookupV st k) v then computeChangedD st rest
    else
      let p := computeChangedD (setA st k v) rest
      (p.1, k :: p.2)

/-- Arming a key's debounce timer: create the key's notifier on first
use (capturing the delay), then schedule the timer with the notifier's
captured delay, superseding any pending timer for that key. -/
def DStore.armTimer (s : DStore) (k : Key) (d : DebounceArg) : DStore :=
  match lookupA s.notifierDelay k with
  | some dl => { s with pending := setA s.pending k dl }
  | none =>
    { s with notifierDelay := s.notifierDelay ++ [(k, d.delay)],
             pending := setA s.pending k d.delay }

/-- The per-changed-key delivery step of the debounce variant: fire the
key's listeners immediately when no debounce was requested, else re-arm
that key's own timer, deferring its notification. -/
def debounceStep (d : DebounceArg) (acc : DStore × List Nat) (k : Key) : DStore × List Nat :=
  match d with
  | DebounceArg.fls => (acc.1, acc.2 ++ listenersOf acc.1.keyListeners k)
  | _ => (DStore.armTimer acc.1 k d, acc.2)

/-- The debounce variant's `applyUpdate`: mutate the state
synchronously; then, per changed key, either fire listeners immediately
(no debounce) or re-arm that key's own timer, deferring notification. -/
def DStore.applyUpdate (s : DStore) (upd : Update) (d : DebounceArg) : DStore × List Nat :=
  let p := computeChangedD s.state upd
  let s1 : DStore := { s with state := p.1 }
  match p.2 with
  | [] => (s1, [])
  | ch => ch.foldl (debounceStep d) (s1, [])

/-- The debounce variant's `set`: always runs the middleware chain (this
variant has no empty-chain shortcut), committing through its
`applyUpdate` with the given debounce argument. -/
def DStore.set (s : DStore) (upd : Update) (d : DebounceArg) : ChainOut DStore :=
  runChain (fun s' u => DStore.applyUpdate s' u d) DStore.state s.mws upd s

/-- Removing every entry of one key from an update. -/
def removeKey : Update → Key → Update
  | [], _ => []
  | (k', v) :: rest, k =>
    if k' = k then removeKey rest k else (k', v) :: removeKey rest k

theorem lookupA_setA_self {α : Type} (l : List (Key × α)) (k : Key) (a : α) :
    lookupA (setA l k a) k = some a := by
  induction l with
  | nil => simp [setA, lookupA]
  | cons e rest ih =>
    by_cases h : e.1 = k
    · simp [setA, lookupA, h]
    · simp [setA, lookupA, h, ih]

theorem lookupA_setA_ne {α : Type} (l : List (Key × α)) {k' k : Key} (a : α)
    (h : k' ≠ k) : lookupA (setA l k' a) k = lookupA l k := by
  induction l with
  | nil => simp [setA, lookupA, h]
  | cons e rest ih =>
    by_cases he : e.1 = k'
    · simp [setA, lookupA, he, h]
    · simp only [setA, lookupA, if_neg he]
      by_cases hek : e.1 = k
      · simp [lookupA, hek]
      · simp [lookupA, hek, ih]

theorem lookupV_setA_ne (st : StateRec) {k' k : Key} (v : Value) (h : k' ≠ k) :
    lookupV (setA st k' v) k = lookupV st k := by
  simp [lookupV, lookupA_setA_ne st v h]

theorem lookupA_append_one_ne {α : Type} (l : List (Key × α)) {k' k : Key} (a : α)
    (h : k' ≠ k) : lookupA (l ++ [(k', a)]) k = lookupA l k := by
  induction l with
  | nil => simp [lookupA, h]
  | cons e rest ih =>
    by_cases he : e.1 = k
    · simp [lookupA, he]
    · simp [lookupA, he, ih]

theorem lookupA_append_one_self {α : Type} (l : List (Key × α)) (k : Key) (a : α)
    (h : lookupA l k = none) : lookupA (l ++ [(k, a)]) k = some a := by
  induction l with
  | nil => simp [lookupA]
  | cons e rest ih =>
    by_cases he : e.1 = k
    · simp [lookupA, he] at h
    · simp only [lookupA, if_neg he] at h
      simp [lookupA, he, ih h]

theorem processCalls_called {σ : Type} (origUpd : Update) (run : Update → σ → ChainOut σ) :
    ∀ (cs : List (Option Update)) (s : σ),
      processCalls origUpd run cs s true = (⟨s, [], [], []⟩, true) := by
  intro cs
  induction cs with
  | nil => intro s; rfl
  | cons c rest ih => intro s; simp [processCalls, ih]

/-- Claim C8: the `nextCalled` guard makes `proceed` idempotent.  One
invocation of an interceptor hands it the continuation `processCalls`;
whatever further calls it makes after the first (`extra`, with arbitrary
payloads), the outcome over the remainder of the chain (`run`) is the
outcome of the first call alone, so the remainder executes exactly once
and the update is committed at most once. -/
theorem claim_C8 {σ : Type} (origUpd : Update) (run : Update → σ → ChainOut σ)
    (c : Option Update) (extra : List (Option Update)) (s : σ) :
    processCalls origUpd run (c :: extra) s false
      = processCalls origUpd run [c] s false := by
  simp [processCalls, processCalls_called]

/-- Claim C6: a field-filtered interceptor is consulted exactly when the
pending update, as rewritten by the earlier stages, contains one of its
filtered fields at the moment control reaches its stage.  When the
filter misses, the stage is skipped and the rest of the chain runs on
the unchanged update (the equation holds for every callback, so the
callback is not invoked); when the filter matches, the stage's id heads
the invocation trace. -/
theorem claim_C6 {σ : Type} (commit : σ → Update → σ × List Nat) (getSt : σ → StateRec)
    (s : σ) (upd : Update) (mw : Mw) (rest : List Mw) (ks : List Key)
    (hks : mw.keys = some ks) :
    (ks.any (fun k => hasKey upd k) = false →
      runChain commit getSt (mw :: rest) upd s = runChain commit getSt rest upd s)
    ∧ (ks.any (fun k => hasKey upd k) = true →
      (runChain commit getSt (mw :: rest) upd s).invoked.head? = some mw.id) := by
  constructor
  · intro h
    have happ : mwApplicable mw upd = false := by
      simp [mwApplicable, hks]
      simpa using h
    rw [runChain, if_neg (by simp [happ])]
  · intro h
    have happ : mwApplicable mw upd = true := by simp [mwApplicable, hks, h]
    rw [runChain, if_pos happ]
    dsimp only
    split <;> rfl

/-- Claim C1, amended.  First part: when control reaches an interceptor
that never effectively calls `proceed` — in particular one that throws
synchronously before calling it (`nextCalls = []`, any `throwsAfter`) —
the whole write is dropped: the store is exactly the store at chain
entry, no listener is invoked, and nothing is committed; since the
outcome is an ordinary value of `runChain`, the throw was absorbed by
the chain and `set` does not raise.  Second part: the outcome of the
chain never depends on whether a callback throws after its recorded
`next` calls and writes — so an interceptor that throws after having
called `proceed` changes nothing relative to not throwing; the commit
performed inside its `proceed` call stands, which is why the original
claim's "write is blocked" fails in that case. -/
theorem claim_C1_amended {σ : Type} (commit : σ → Update → σ × List Nat)
    (getSt : σ → StateRec) (s : σ) (upd : Update) (mw : Mw) (rest : List Mw)
    (happ : mwApplicable mw upd = true) :
    ((mw.act (getSt s) upd).nextCalls = [] →
      runChain commit getSt (mw :: rest) upd s
        = ⟨s, [], [mw.id], (mw.act (getSt s) upd).writes⟩)
    ∧ (∀ mw' : Mw, mw'.id = mw.id → mw'.keys = mw.keys →
        (∀ st u, (mw'.act st u).nextCalls = (mw.act st u).nextCalls ∧
                 (mw'.act st u).writes = (mw.act st u).writes) →
        runChain commit getSt (mw' :: rest) upd s
          = runChain commit getSt (mw :: rest) upd s) := by
  constructor
  · intro hne
    rw [runChain, if_pos happ]
    simp only [hne]
    rfl
  · intro mw' hid hkeys hact
    have happ' : mwApplicable mw' upd = true := by
      unfold mwApplicable at happ ⊢
      rw [hkeys]
      exact happ
    obtain ⟨hn, hw⟩ := hact (getSt s) upd
    rw [runChain, if_pos happ', runChain, if_pos happ]
    simp only [hn, hw, hid]

/-- The store of the C1 counterexample: one field `v = 0`, one listener
(id 0) on `v`, and a single unfiltered interceptor that calls `proceed`
with no payload and then throws. -/
def c1store : Store :=
  ⟨[("v", Value.num 0)], [("v", [0])], [], none,
   [⟨7, fun _ _ => ⟨[none], true, []⟩, none⟩]⟩

/-- Claim C1, counterexample.  The claim asserts that whenever an
interceptor throws synchronously — "including an interceptor that
throws after having already called proceed" — no field changes and no
listener is notified.  Here the single interceptor calls `proceed` and
then throws, yet `set({v: 1})` leaves the state changed to `v = 1` and
listener 0 was invoked. -/
theorem claim_C1_counterexample :
    (c1store.set [("v", Value.num 1)]).store.state = [("v", Value.num 1)]
    ∧ (c1store.set [("v", Value.num 1)]).notifs = [0] := by
  constructor <;> rfl

/-- Witness for the amended claim C1 at a concrete input: a store
`{v: 0}` with one interceptor (id 3) that throws before calling
`proceed`; the write is dropped and the trace records only the faulting
stage. -/
theorem claim_C1_witness :
    runChain Store.applyUpdate Store.state
      [⟨3, fun _ _ => ⟨[], true, []⟩, none⟩] [("v", Value.num 1)]
      (⟨[("v", Value.num 0)], [("v", [0])], [], none, []⟩ : Store)
    = ⟨⟨[("v", Value.num 0)], [("v", [0])], [], none, []⟩, [], [3], []⟩ :=
  (claim_C1_amended Store.applyUpdate Store.state
    (⟨[("v", Value.num 0)], [("v", [0])], [], none, []⟩ : Store)
    [("v", Value.num 1)] ⟨3, fun _ _ => ⟨[], true, []⟩, none⟩ [] rfl).1 rfl

/-- Witness for claim C6 at concrete inputs: an interceptor filtered to
field `a` (id 5) is skipped by `set({b: 20})` — the chain outcome is
that of the chain without it — and is invoked by `set({a: 10})`. -/
theorem claim_C6_witness :
    (runChain Store.applyUpdate Store.state
        [⟨5, fun _ _ => ⟨[none], false, []⟩, some ["a"]⟩] [("b", Value.num 20)]
        (⟨[("a", Value.num 1), ("b", Value.num 2)], [], [], none, []⟩ : Store)
      = runChain Store.applyUpdate Store.state [] [("b", Value.num 20)]
        (⟨[("a", Value.num 1), ("b", Value.num 2)], [], [], none, []⟩ : Store))
    ∧ (runChain Store.applyUpdate Store.state
        [⟨5, fun _ _ => ⟨[none], false, []⟩, some ["a"]⟩] [("a", Value.num 10)]
        (⟨[("a", Value.num 1), ("b", Value.num 2)], [], [], none, []⟩ : Store)).invoked.head?
      = some 5 :=
  ⟨(claim_C6 Store.applyUpdate Store.state
      (⟨[("a", Value.num 1), ("b", Value.num 2)], [], [], none, []⟩ : Store)
      [("b", Value.num 20)] ⟨5, fun _ _ => ⟨[none], false, []⟩, some ["a"]⟩ [] ["a"] rfl).1
      (by decide),
   (claim_C6 Store.applyUpdate Store.state
      (⟨[("a", Value.num 1), ("b", Value.num 2)], [], [], none, []⟩ : Store)
      [("a", Value.num 10)] ⟨5, fun _ _ => ⟨[none], false, []⟩, some ["a"]⟩ [] ["a"] rfl).2
      (by decide)⟩

theorem applySingleKey_eq_applyUpdate (s : Store) (k : Key) (v : Value) :
    s.applySingleKey k v = s.applyUpdate [(k, v)] := by
  unfold Store.applySingleKey Store.applyUpdate computeChanged
  by_cases h1 : objectIs (lookupV s.state k) v = true
  · simp [h1, computeChanged]
  · rw [if_neg h1]
    by_cases h2 : skipByEq s.eqReg k (lookupV s.state k) v = true
    · simp [h1, h2, computeChanged]
    · simp only [h1, h2, if_neg, if_false, Bool.false_eq_true, computeChanged]
      unfold Store.notifyKey
      cases hb : s.batchedKeys <;> simp [hb, addUnique, List.foldl]

/-- Claim C7: `setKey(key, value)` is observably equivalent to
`set({[key]: value})` — identical resulting store, listener
invocations, interceptor trace and storage writes — both on the
empty-chain direct path (`applySingleKey`) and through a non-empty
middleware chain. -/
theorem claim_C7 (s : Store) (k : Key) (v : Value) :
    s.setKey k v = s.set [(k, v)] := by
  unfold Store.setKey
  by_cases h : s.mws.isEmpty
  · rw [if_pos h]
    unfold Store.set
    rw [if_pos h, applySingleKey_eq_applyUpdate]
  · rw [if_neg h]


theorem runChain_nil {σ : Type} (commit : σ → Update → σ × List Nat)
    (getSt : σ → StateRec) (upd : Update) (s : σ) :
    runChain commit getSt [] upd s
      = ⟨(commit s upd).1, (commit s upd).2, [], []⟩ := rfl

theorem persistAct_nextCalls (p : String) (pks : List Key) (fails : String → Bool)
    (st : StateRec) (upd : Update) :
    (persistAct p pks fails st upd).nextCalls = [none] := by
  unfold persistAct
  dsimp only
  split <;> rfl

/-- Claim C10: the persistence middleware never blocks and never
rewrites.  Its callback always makes exactly one `next()` call with no
replacement payload, so the store outcome and listener invocations of a
chain containing it are those of the chain without it and later stages
see exactly the update it received; and the callback's behaviour is
independent of which storage writes fail (throwing `setItem` calls are
caught inside the loop). -/
theorem claim_C10 {σ : Type} (commit : σ → Update → σ × List Nat) (getSt : σ → StateRec)
    (p : String) (pks : List Key) (fails : String → Bool) (mid : Nat) :
    (∀ (st : StateRec) (upd : Update),
      (persistAct p pks fails st upd).nextCalls = [none])
    ∧ (∀ (s : σ) (upd : Update) (rest : List Mw),
        (runChain commit getSt (persistEntry mid p pks fails :: rest) upd s).store
          = (runChain commit getSt rest upd s).store
        ∧ (runChain commit getSt (persistEntry mid p pks fails :: rest) upd s).notifs
          = (runChain commit getSt rest upd s).notifs)
    ∧ (∀ (f1 f2 : String → Bool) (st : StateRec) (upd : Update),
        persistAct p pks f1 st upd = persistAct p pks f2 st upd) := by
  refine ⟨persistAct_nextCalls p pks fails, ?_, fun f1 f2 st upd => rfl⟩
  intro s upd rest
  by_cases happ : mwApplicable (persistEntry mid p pks fails) upd = true
  · rw [runChain, if_pos happ]
    show ((let a := persistAct p pks fails (getSt s) upd; _ : ChainOut σ).store = _) ∧ _
    simp only [persistEntry, persistAct_nextCalls, processCalls, Bool.false_eq_true,
      if_neg, Option.getD_none, processCalls_called]
    constructor <;> simp
  · rw [runChain, if_neg happ]
    exact ⟨rfl, rfl⟩

/-- Claim C2, amended.  With the persistence middleware for prefix `p`
and key list `pks` registered as the (only) middleware, any `set`
performs exactly one `setItem` per persisted key that is *present* in
the update, in key-list order, with storage key `p ++ ":" ++ field` and
the serialized new value — irrespective of whether that value is an
actual change from the current state: presence in the update, not value
change, triggers the write (a genuinely changed persisted field is
still written exactly once). -/
theorem claim_C2_amended (st : StateRec) (L : KeyListeners)
    (E : List (Key × (Value → Value → Bool))) (b : Option (List Key))
    (mid : Nat) (p : String) (pks : List Key) (fails : String → Bool) (upd : Update) :
    (Store.set ⟨st, L, E, b, [persistEntry mid p pks fails]⟩ upd).writes
      = (pks.filter (fun k => hasKey upd k)).map
          (fun k => (p ++ ":" ++ k, jsonStringify ((lookupA upd k).getD Value.undef))) := by
  rw [Store.set]
  simp only [List.isEmpty_cons, Bool.false_eq_true, if_neg, if_false]
  by_cases happ : mwApplicable (persistEntry mid p pks fails) upd = true
  · have hfil : (pks.filter (fun k => hasKey upd k)).isEmpty = false := by
      have hany : pks.any (fun k => hasKey upd k) = true := by
        simpa [mwApplicable, persistEntry] using happ
      rcases List.any_eq_true.mp hany with ⟨k, hk, hkk⟩
      have hmem : k ∈ pks.filter (fun k => hasKey upd k) := List.mem_filter.mpr ⟨hk, hkk⟩
      cases hl : pks.filter (fun k => hasKey upd k) with
      | nil => rw [hl] at hmem; simp at hmem
      | cons a t => rfl
    have hact : persistAct p pks fails st upd
        = { nextCalls := [none], throwsAfter := false,
            writes := (pks.filter (fun k => hasKey upd k)).map (fun k =>
              (p ++ ":" ++ k, jsonStringify ((lookupA upd k).getD Value.undef))) } := by
      unfold persistAct
      dsimp only
      rw [if_neg (by simp [hfil])]
    rw [runChain, if_pos happ]
    show (ChainOut.writes _) = _
    simp only [persistEntry]
    simp only [hact, processCalls, Bool.false_eq_true, if_neg, Option.getD_none,
      processCalls_called, runChain_nil]
    simp
  · have hany : pks.any (fun k => hasKey upd k) = false := by
      simpa [mwApplicable, persistEntry] using happ
    have hfil : pks.filter (fun k => hasKey upd k) = [] := by
      refine List.filter_eq_nil_iff.mpr ?_
      intro k hk
      have := List.any_eq_false.mp hany k hk
      simpa using this
    rw [hfil, runChain, if_neg happ, runChain_nil]
    rfl

/-- The store of the C2 counterexample: field `theme` currently holds
the string `dark`, with the persistence middleware registered for
prefix `app` and key list `[theme]`. -/
def c2store : Store :=
  ⟨[("theme", Value.str "dark")], [], [], none,
   [persistEntry 0 "app" ["theme"] (fun _ => false)]⟩

/-- Claim C2, counterexample.  The claim asserts that a set carrying a
value identical to the current value produces no storage write for that
field.  Here `set({theme: "dark"})` on a store already holding
`theme = "dark"` is not an actual change (the committed state is
unchanged), yet `setItem("app:theme", "\"dark\"")` is invoked once. -/
theorem claim_C2_counterexample :
    (c2store.set [("theme", Value.str "dark")]).writes = [("app:theme", "\"dark\"")]
    ∧ (c2store.set [("theme", Value.str "dark")]).store.state
      = [("theme", Value.str "dark")] := by
  constructor <;> rfl

theorem dedupStep_fst_mem (ls : List Nat) :
    ∀ (notified : List Nat) (l : Nat),
      l ∈ (dedupStep notified ls).1 ↔ l ∈ notified ∨ l ∈ ls := by
  induction ls with
  | nil => intro notified l; simp [dedupStep]
  | cons a rest ih =>
    intro notified l
    by_cases ha : a ∈ notified
    · rw [dedupStep, if_pos ha, ih]
      constructor
      · rintro (h | h)
        · exact Or.inl h
        · exact Or.inr (List.mem_cons_of_mem a h)
      · rintro (h | h)
        · exact Or.inl h
        · rcases List.mem_cons.mp h with h | h
          · exact Or.inl (h ▸ ha)
          · exact Or.inr h
    · rw [dedupStep, if_neg ha]
      dsimp only
      rw [ih]
      simp [List.mem_append, List.mem_cons]
      tauto

theorem dedupStep_count (ls : List Nat) :
    ∀ (notified : List Nat) (l : Nat),
      (dedupStep notified ls).2.count l
        = if l ∈ ls ∧ l ∉ notified then 1 else 0 := by
  induction ls with
  | nil => intro notified l; simp [dedupStep]
  | cons a rest ih =>
    intro notified l
    by_cases ha : a ∈ notified
    · rw [dedupStep, if_pos ha, ih]
      by_cases hl : l = a
      · subst hl; simp [ha]
      · simp only [List.mem_cons]
        have : (l = a ∨ l ∈ rest) ∧ l ∉ notified ↔ l ∈ rest ∧ l ∉ notified := by
          tauto
        simp only [this]
    · rw [dedupStep, if_neg ha]
      dsimp only
      rw [List.count_cons, ih]
      by_cases hl : l = a
      · subst hl
        simp [ha, List.mem_append]
      · have h1 : (l ∈ rest ∧ l ∉ notified ++ [a]) ↔ (l ∈ rest ∧ l ∉ notified) := by
          simp [List.mem_append, hl]
        have h2 : (l ∈ a :: rest ∧ l ∉ notified) ↔ (l ∈ rest ∧ l ∉ notified) := by
          simp [List.mem_cons, hl]
        have h3 : (a == l) = false := by
          simp [Ne.symm hl]
        simp only [h1, h2, h3]
        simp

theorem notifyKeysDedup_count (L : KeyListeners) :
    ∀ (keys : List Key) (notified : List Nat) (l : Nat),
      (notifyKeysDedup L keys notified).count l
        = if (∃ k ∈ keys, l ∈ listenersOf L k) ∧ l ∉ notified then 1 else 0 := by
  intro keys
  induction keys with
  | nil => intro notified l; simp [notifyKeysDedup]
  | cons k ks ih =>
    intro notified l
    simp only [notifyKeysDedup]
    rw [List.count_append, dedupStep_count, ih]
    have hmem := dedupStep_fst_mem (listenersOf L k) notified l
    by_cases h1 : l ∈ listenersOf L k
    · by_cases h2 : l ∈ notified
      · simp [h1, h2, hmem]
      · have : l ∈ (dedupStep notified (listenersOf L k)).1 := hmem.mpr (Or.inr h1)
        simp [h1, h2, this]
    · by_cases h2 : l ∈ notified
      · have : l ∈ (dedupStep notified (listenersOf L k)).1 := hmem.mpr (Or.inl h2)
        simp [h1, h2, this]
      · have : l ∉ (dedupStep notified (listenersOf L k)).1 := by
          rw [hmem]; tauto
        by_cases h3 : ∃ k' ∈ ks, l ∈ listenersOf L k'
        · simp [h1, h2, this, h3]
        · simp [h1, h2, this, h3]

theorem notifyKeysDedup_mem (L : KeyListeners) (keys : List Key) (notified : List Nat)
    (l : Nat) (h : l ∈ notifyKeysDedup L keys notified) :
    ∃ k ∈ keys, l ∈ listenersOf L k := by
  by_contra hno
  have hc := notifyKeysDedup_count L keys notified l
  rw [if_neg (fun hcon => hno hcon.1)] at hc
  exact (List.count_eq_zero.mp hc) h

theorem applyUpdate_frame (s : Store) (u : Update) :
    (s.applyUpdate u).1.keyListeners = s.keyListeners
    ∧ (s.applyUpdate u).1.eqReg = s.eqReg
    ∧ (s.applyUpdate u).1.mws = s.mws
    ∧ (s.applyUpdate u).1.state = (computeChanged s.eqReg s.state u).1 := by
  unfold Store.applyUpdate
  dsimp only
  split
  · exact ⟨rfl, rfl, rfl, rfl⟩
  · split
    · exact ⟨rfl, rfl, rfl, rfl⟩
    · split <;> exact ⟨rfl, rfl, rfl, rfl⟩

theorem applyUpdate_batched (s : Store) (u : Update) (b : List Key)
    (hb : s.batchedKeys = some b) :
    (s.applyUpdate u).2 = [] ∧ (s.applyUpdate u).1.batchedKeys.isSome = true := by
  unfold Store.applyUpdate
  dsimp only
  split
  · simp [hb]
  · rw [hb]
    dsimp only
    exact ⟨rfl, rfl⟩

theorem processCalls_inv {σ : Type} (P : σ → Prop) (origUpd : Update)
    (run : Update → σ → ChainOut σ)
    (h : ∀ u s, P s → P (run u s).store ∧ (run u s).notifs = []) :
    ∀ (cs : List (Option Update)) (s : σ) (called : Bool), P s →
      P (processCalls origUpd run cs s called).1.store
      ∧ (processCalls origUpd run cs s called).1.notifs = [] := by
  intro cs
  induction cs with
  | nil => intro s called hs; exact ⟨hs, rfl⟩
  | cons c rest ih =>
    intro s called hs
    by_cases hcalled : called = true
    · subst hcalled
      rw [processCalls, if_pos rfl]
      exact ih s true hs
    · have : called = false := by revert hcalled; cases called <;> simp
      subst this
      rw [processCalls, if_neg (by simp)]
      dsimp only
      obtain ⟨h1, h2⟩ := h (c.getD origUpd) s hs
      obtain ⟨h3, h4⟩ := ih (run (c.getD origUpd) s).store true h1
      exact ⟨h3, by simp [h2, h4]⟩

theorem runChain_inv {σ : Type} (P : σ → Prop) (commit : σ → Update → σ × List Nat)
    (getSt : σ → StateRec)
    (hc : ∀ s u, P s → P (commit s u).1 ∧ (commit s u).2 = []) :
    ∀ (mws : List Mw) (upd : Update) (s : σ), P s →
      P (runChain commit getSt mws upd s).store
      ∧ (runChain commit getSt mws upd s).notifs = [] := by
  intro mws
  induction mws with
  | nil => intro upd s hs; exact hc s upd hs
  | cons mw rest ih =>
    intro upd s hs
    rw [runChain]
    by_cases happ : mwApplicable mw upd = true
    · rw [if_pos happ]
      dsimp only
      have hrun : ∀ u s', P s' →
          P ((fun u s' => runChain commit getSt rest u s') u s').store
          ∧ ((fun u s' => runChain commit getSt rest u s') u s').notifs = [] := by
        intro u s' hs'
        exact ih u s' hs'
      have hp := processCalls_inv P upd (fun u s' => runChain commit getSt rest u s')
        hrun (mw.act (getSt s) upd).nextCalls s false hs
      split
      · exact hp
      · exact ⟨hs, rfl⟩
    · rw [if_neg happ]
      exact ih upd s hs

/-- The invariant used while a batch is active: batching stays on, and
the subscription index is untouched. -/
def BatchInv (L : KeyListeners) (s : Store) : Prop :=
  s.batchedKeys.isSome = true ∧ s.keyListeners = L

theorem applyUpdate_BatchInv (L : KeyListeners) (s : Store) (u : Update)
    (hs : BatchInv L s) :
    BatchInv L (s.applyUpdate u).1 ∧ (s.applyUpdate u).2 = [] := by
  obtain ⟨h1, h2⟩ := hs
  rcases Option.isSome_iff_exists.mp h1 with ⟨b, hb⟩
  obtain ⟨hA, hB⟩ := applyUpdate_batched s u b hb
  exact ⟨⟨hB, (applyUpdate_frame s u).1.trans h2⟩, hA⟩

theorem applySingleKey_BatchInv (L : KeyListeners) (s : Store) (k : Key) (v : Value)
    (hs : BatchInv L s) :
    BatchInv L (s.applySingleKey k v).1 ∧ (s.applySingleKey k v).2 = [] := by
  obtain ⟨h1, h2⟩ := hs
  rcases Option.isSome_iff_exists.mp h1 with ⟨b, hb⟩
  unfold Store.applySingleKey
  split
  · exact ⟨⟨h1, h2⟩, rfl⟩
  · split
    · exact ⟨⟨h1, h2⟩, rfl⟩
    · unfold Store.notifyKey
      dsimp only
      rw [hb]
      exact ⟨⟨rfl, h2⟩, rfl⟩

theorem set_BatchInv (L : KeyListeners) (s : Store) (u : Update) (hs : BatchInv L s) :
    BatchInv L (s.set u).store ∧ (s.set u).notifs = [] := by
  unfold Store.set
  split
  · dsimp only
    exact applyUpdate_BatchInv L s u hs
  · exact runChain_inv (BatchInv L) Store.applyUpdate Store.state
      (fun s' u' hs' => applyUpdate_BatchInv L s' u' hs') s.mws u s hs

theorem setKey_BatchInv (L : KeyListeners) (s : Store) (k : Key) (v : Value)
    (hs : BatchInv L s) :
    BatchInv L (s.setKey k v).store ∧ (s.setKey k v).notifs = [] := by
  unfold Store.setKey
  split
  · dsimp only
    exact applySingleKey_BatchInv L s k v hs
  · exact set_BatchInv L s [(k, v)] hs

theorem runOps_BatchInv (L : KeyListeners) :
    ∀ (ops : List Op) (s : Store), BatchInv L s →
      BatchInv L (Store.runOps s ops).1 ∧ (Store.runOps s ops).2 = [] := by
  intro ops
  induction ops with
  | nil => intro s hs; exact ⟨hs, rfl⟩
  | cons op rest ih =>
    intro s hs
    rw [Store.runOps]
    dsimp only
    have hstep : BatchInv L (s.execOp op).1 ∧ (s.execOp op).2 = [] := by
      cases op with
      | setU u => exact set_BatchInv L s u hs
      | setK k v => exact setKey_BatchInv L s k v hs
    obtain ⟨hs', he⟩ := hstep
    obtain ⟨hs'', he'⟩ := ih (s.execOp op).1 hs'
    exact ⟨hs'', by simp [he, he']⟩

/-- Claim C3: for an outermost `batch` whose body performs `ops` and
then (when `raises`) throws: no listener runs during the body (all
commits only accumulate their changed keys), the body's error is
re-raised to the caller only after the flush, batching is off again
afterwards, and the flush invokes each listener exactly once iff some
accumulated changed field has it subscribed — deduplicated by listener
identity across fields — and zero times otherwise. -/
theorem claim_C3 (s : Store) (ops : List Op) (raises : Bool)
    (hb : s.batchedKeys = none) :
    (Store.runOps { s with batchedKeys := some [] } ops).2 = []
    ∧ (s.batch ops raises).2.2 = raises
    ∧ (s.batch ops raises).1.batchedKeys = none
    ∧ (∀ l : Nat, (s.batch ops raises).2.1.count l
        = if ∃ k ∈ (Store.runOps { s with batchedKeys := some [] } ops).1.batchedKeys.getD [],
              l ∈ listenersOf s.keyListeners k
          then 1 else 0) := by
  have hinv : BatchInv s.keyListeners { s with batchedKeys := some [] } := ⟨rfl, rfl⟩
  obtain ⟨⟨hsome, hL⟩, hnotifs⟩ := runOps_BatchInv s.keyListeners ops _ hinv
  unfold Store.batch
  rw [hb]
  dsimp only
  refine ⟨hnotifs, rfl, rfl, ?_⟩
  intro l
  rw [hnotifs]
  simp only [List.nil_append]
  rw [hL, notifyKeysDedup_count]
  simp

/-- The store and batch body of the C3 witness: two fields, listener 0
on both fields and listener 1 on `v` only; the body writes `v` twice
and `w` once and then throws. -/
def c3store : Store :=
  ⟨[("v", Value.num 0), ("w", Value.num 0)], [("v", [0, 1]), ("w", [0])], [], none, []⟩

/-- The operations of the C3 witness batch body. -/
def c3ops : List Op :=
  [Op.setU [("v", Value.num 1)], Op.setU [("v", Value.num 2), ("w", Value.num 5)]]

/-- Witness for claim C3 at a concrete input: the body's error is
re-raised, and listener 0 — subscribed to both changed fields — is
invoked exactly once by the flush. -/
theorem claim_C3_witness :
    (c3store.batch c3ops true).2.2 = true
    ∧ (c3store.batch c3ops true).2.1.count 0
      = if ∃ k ∈ (Store.runOps { c3store with batchedKeys := some [] } c3ops).1.batchedKeys.getD [],
            0 ∈ listenersOf c3store.keyListeners k
        then 1 else 0 :=
  ⟨(claim_C3 c3store c3ops true rfl).2.1,
   (claim_C3 c3store c3ops true rfl).2.2.2 0⟩

theorem computeChanged_keys_sub (reg : List (Key × (Value → Value → Bool))) :
    ∀ (upd : Update) (st : StateRec) (k : Key),
      k ∈ (computeChanged reg st upd).2 → k ∈ upd.map Prod.fst := by
  intro upd
  induction upd with
  | nil => intro st k h; simp [computeChanged] at h
  | cons e rest ih =>
    intro st k h
    rw [computeChanged] at h
    by_cases h1 : objectIs (lookupV st e.1) e.2 = true
    · rw [if_pos h1] at h
      exact List.mem_cons_of_mem _ (ih st k h)
    · rw [if_neg h1] at h
      by_cases h2 : skipByEq reg e.1 (lookupV st e.1) e.2 = true
      · rw [if_pos h2] at h
        exact List.mem_cons_of_mem _ (ih st k h)
      · rw [if_neg h2] at h
        dsimp only at h
        rcases List.mem_cons.mp h with h | h
        · exact List.mem_cons.mpr (Or.inl h)
        · exact List.mem_cons_of_mem _ (ih (setA st e.1 e.2) k h)

theorem computeChanged_lookup_not_mem (reg : List (Key × (Value → Value → Bool))) :
    ∀ (upd : Update) (st : StateRec) (k : Key),
      k ∉ upd.map Prod.fst →
      lookupV (computeChanged reg st upd).1 k = lookupV st k := by
  intro upd
  induction upd with
  | nil => intro st k _; rfl
  | cons e rest ih =>
    intro st k hk
    have hek : e.1 ≠ k := fun h => hk (List.mem_cons.mpr (Or.inl h.symm))
    have hkr : k ∉ rest.map Prod.fst := fun h => hk (List.mem_cons_of_mem _ h)
    rw [computeChanged]
    by_cases h1 : objectIs (lookupV st e.1) e.2 = true
    · rw [if_pos h1]; exact ih st k hkr
    · rw [if_neg h1]
      by_cases h2 : skipByEq reg e.1 (lookupV st e.1) e.2 = true
      · rw [if_pos h2]; exact ih st k hkr
      · rw [if_neg h2]
        dsimp only
        rw [ih (setA st e.1 e.2) k hkr, lookupV_setA_ne st e.2 hek]

theorem removeKey_of_not_mem :
    ∀ (upd : Update) (k : Key), k ∉ upd.map Prod.fst → removeKey upd k = upd := by
  intro upd
  induction upd with
  | nil => intro k _; rfl
  | cons e rest ih =>
    intro k hk
    have hek : e.1 ≠ k := fun h => hk (List.mem_cons.mpr (Or.inl h.symm))
    have hkr : k ∉ rest.map Prod.fst := fun h => hk (List.mem_cons_of_mem _ h)
    cases e with
    | mk k1 v1 =>
      rw [removeKey, if_neg hek, ih k hkr]

theorem removeKey_not_mem_self :
    ∀ (upd : Update) (k : Key), k ∉ (removeKey upd k).map Prod.fst := by
  intro upd
  induction upd with
  | nil => intro k h; simp [removeKey] at h
  | cons e rest ih =>
    intro k h
    cases e with
    | mk k1 v1 =>
      rw [removeKey] at h
      by_cases he : k1 = k
      · rw [if_pos he] at h
        exact ih k h
      · rw [if_neg he] at h
        rcases List.mem_cons.mp h with h | h
        · exact he h.symm
        · exact ih k h

theorem computeChanged_skip_entry (reg : List (Key × (Value → Value → Bool))) :
    ∀ (upd : Update) (st : StateRec) (k : Key) (v : Value),
      (upd.map Prod.fst).Nodup → (k, v) ∈ upd →
      (objectIs (lookupV st k) v = true ∨ skipByEq reg k (lookupV st k) v = true) →
      computeChanged reg st upd = computeChanged reg st (removeKey upd k) := by
  intro upd
  induction upd with
  | nil => intro st k v _ hmem _; simp at hmem
  | cons e rest ih =>
    intro st k v hnd hmem hskip
    cases e with
    | mk k1 v1 =>
      rw [List.map_cons] at hnd
      obtain ⟨hhead, hndr⟩ := List.nodup_cons.mp hnd
      by_cases hk : k1 = k
      · subst hk
        have hv : v1 = v := by
          rcases List.mem_cons.mp hmem with h | h
          · exact (Prod.ext_iff.mp h.symm).2
          · exact absurd (List.mem_map.mpr ⟨(k1, v), h, rfl⟩) hhead
        subst hv
        rw [removeKey, if_pos rfl, removeKey_of_not_mem rest k1 hhead]
        rcases hskip with h | h
        · rw [computeChanged, if_pos h]
        · by_cases h1 : objectIs (lookupV st k1) v1 = true
          · rw [computeChanged, if_pos h1]
          · rw [computeChanged, if_neg h1, if_pos h]
      · have hmem' : (k, v) ∈ rest := by
          rcases List.mem_cons.mp hmem with h | h
          · exact absurd (congrArg Prod.fst h).symm hk
          · exact h
        rw [removeKey, if_neg hk]
        rw [computeChanged, computeChanged]
        by_cases h1 : objectIs (lookupV st k1) v1 = true
        · rw [if_pos h1, if_pos h1]
          exact ih st k v hndr hmem' hskip
        · rw [if_neg h1, if_neg h1]
          by_cases h2 : skipByEq reg k1 (lookupV st k1) v1 = true
          · rw [if_pos h2, if_pos h2]
            exact ih st k v hndr hmem' hskip
          · rw [if_neg h2, if_neg h2]
            dsimp only
            have hskip' : objectIs (lookupV (setA st k1 v1) k) v = true
                ∨ skipByEq reg k (lookupV (setA st k1 v1) k) v = true := by
              rw [lookupV_setA_ne st v1 hk]
              exact hskip
            rw [ih (setA st k1 v1) k v hndr hmem' hskip']

theorem applyUpdate_congr (s : Store) (u u' : Update)
    (h : computeChanged s.eqReg s.state u = computeChanged s.eqReg s.state u') :
    s.applyUpdate u = s.applyUpdate u' := by
  unfold Store.applyUpdate
  rw [h]

theorem applyUpdate_notif_mem (s : Store) (u : Update) (l : Nat)
    (h : l ∈ (s.applyUpdate u).2) :
    ∃ k ∈ (computeChanged s.eqReg s.state u).2, l ∈ listenersOf s.keyListeners k := by
  unfold Store.applyUpdate at h
  dsimp only at h
  split at h
  · simp at h
  · split at h
    · simp at h
    · split at h
      · rename_i k hk
        exact ⟨k, by rw [hk]; exact List.mem_singleton.mpr rfl, by simpa using h⟩
      · exact notifyKeysDedup_mem s.keyListeners _ [] l (by simpa using h)

theorem computeChanged_eq_ext
    (r1 r2 : List (Key × (Value → Value → Bool)))
    (hagree : ∀ (k : Key) (a b : Value), objectIs a b = false →
      skipByEq r1 k a b = skipByEq r2 k a b) :
    ∀ (upd : Update) (st : StateRec),
      computeChanged r1 st upd = computeChanged r2 st upd := by
  intro upd
  induction upd with
  | nil => intro st; rfl
  | cons e rest ih =>
    intro st
    rw [computeChanged, computeChanged]
    by_cases h1 : objectIs (lookupV st e.1) e.2 = true
    · rw [if_pos h1, if_pos h1, ih]
    · rw [if_neg h1, if_neg h1,
        hagree e.1 (lookupV st e.1) e.2 (Bool.not_eq_true _ ▸ h1)]
      by_cases h2 : skipByEq r2 e.1 (lookupV st e.1) e.2 = true
      · rw [if_pos h2, if_pos h2, ih]
      · rw [if_neg h2, if_neg h2, ih]

theorem set_skip_entry_frame (s : Store) (upd : Update) (k : Key) (v : Value)
    (hmw : s.mws = [])
    (hnd : (upd.map Prod.fst).Nodup)
    (hmem : (k, v) ∈ upd)
    (hskip : objectIs (lookupV s.state k) v = true
      ∨ skipByEq s.eqReg k (lookupV s.state k) v = true) :
    k ∉ (computeChanged s.eqReg s.state upd).2
    ∧ lookupV (s.set upd).store.state k = lookupV s.state k
    ∧ (∀ l : Nat, (∀ k', l ∈ listenersOf s.keyListeners k' → k' = k) →
        l ∉ (s.set upd).notifs) := by
  have hcc := computeChanged_skip_entry s.eqReg upd s.state k v hnd hmem hskip
  have hkrm : k ∉ (removeKey upd k).map Prod.fst := removeKey_not_mem_self upd k
  have hknot : k ∉ (computeChanged s.eqReg s.state upd).2 := by
    intro hkin
    rw [hcc] at hkin
    exact hkrm (computeChanged_keys_sub s.eqReg (removeKey upd k) s.state k hkin)
  have hset : s.set upd = ⟨(s.applyUpdate upd).1, (s.applyUpdate upd).2, [], []⟩ := by
    rw [Store.set, if_pos (by rw [hmw]; rfl)]
  refine ⟨hknot, ?_, ?_⟩
  · rw [hset]
    show lookupV (s.applyUpdate upd).1.state k = lookupV s.state k
    rw [(applyUpdate_frame s upd).2.2.2, hcc]
    exact computeChanged_lookup_not_mem s.eqReg (removeKey upd k) s.state k hkrm
  · intro l honly hlin
    rw [hset] at hlin
    obtain ⟨k', hk'in, hk'l⟩ := applyUpdate_notif_mem s upd l hlin
    exact hknot ((honly k' hk'l) ▸ hk'in)

/-- Claim C4: a field with a registered `skipSetWhen` predicate.  On a
committed set whose new value for the field is not `Object.is`-identical
to the current one but which the predicate declares equal: the field is
not recorded as changed, its stored value is not replaced (the old value
is retained), and no listener subscribed only to that field is notified.
Moreover the predicate is consulted only when identities differ: two
registries whose predicates agree on all non-identical pairs produce
identical commits.  Registration via `skipSetWhen` is what installs the
predicate. -/
theorem claim_C4 :
    (∀ (s : Store) (upd : Update) (k : Key) (v : Value) (eq : Value → Value → Bool),
      s.mws = [] →
      (upd.map Prod.fst).Nodup →
      (k, v) ∈ upd →
      lookupA s.eqReg k = some eq →
      objectIs (lookupV s.state k) v = false →
      eq (lookupV s.state k) v = true →
      k ∉ (computeChanged s.eqReg s.state upd).2
      ∧ lookupV (s.set upd).store.state k = lookupV s.state k
      ∧ (∀ l : Nat, (∀ k', l ∈ listenersOf s.keyListeners k' → k' = k) →
          l ∉ (s.set upd).notifs))
    ∧ (∀ (s : Store) (k : Key) (f : Value → Value → Bool),
        lookupA (s.skipSetWhen k f).eqReg k = some f)
    ∧ (∀ (r1 r2 : List (Key × (Value → Value → Bool))) (st : StateRec) (upd : Update),
        (∀ (k : Key) (a b : Value), objectIs a b = false →
          skipByEq r1 k a b = skipByEq r2 k a b) →
        computeChanged r1 st upd = computeChanged r2 st upd) := by
  refine ⟨?_, ?_, fun r1 r2 st upd h => computeChanged_eq_ext r1 r2 h upd st⟩
  · intro s upd k v eq hmw hnd hmem hreg hneq heq
    refine set_skip_entry_frame s upd k v hmw hnd hmem (Or.inr ?_)
    unfold skipByEq
    rw [hreg]
    exact heq
  · intro s k f
    unfold Store.skipSetWhen
    exact lookupA_setA_self s.eqReg k f

/-- The store of the C4 witness: field `user` holds object 1, a
predicate treating any two values as equal is registered for `user`,
and listener 9 is subscribed to `user` only. -/
def c4store : Store :=
  ⟨[("user", Value.obj 1)], [("user", [9])], [("user", fun _ _ => true)], none, []⟩

/-- Witness for claim C4 at a concrete input: writing object 2 over
object 1 under an always-equal predicate records no change and retains
the old stored reference. -/
theorem claim_C4_witness :
    "user" ∉ (computeChanged c4store.eqReg c4store.state [("user", Value.obj 2)]).2
    ∧ lookupV (c4store.set [("user", Value.obj 2)]).store.state "user" = Value.obj 1 := by
  have h := claim_C4.1 c4store [("user", Value.obj 2)] "user" (Value.obj 2)
    (fun _ _ => true) rfl (by decide) (by simp) rfl (by decide) rfl
  exact ⟨h.1, h.2.1.trans rfl⟩

theorem computeChanged_all_skip (reg : List (Key × (Value → Value → Bool))) :
    ∀ (upd : Update) (st : StateRec),
      (∀ e ∈ upd, objectIs (lookupV st e.1) e.2 = true
        ∨ skipByEq reg e.1 (lookupV st e.1) e.2 = true) →
      computeChanged reg st upd = (st, []) := by
  intro upd
  induction upd with
  | nil => intro st _; rfl
  | cons e rest ih =>
    intro st h
    have hrest : ∀ e' ∈ rest, objectIs (lookupV st e'.1) e'.2 = true
        ∨ skipByEq reg e'.1 (lookupV st e'.1) e'.2 = true :=
      fun e' he' => h e' (List.mem_cons_of_mem _ he')
    rcases h e (List.mem_cons_self _ _) with he | he
    · rw [computeChanged, if_pos he]
      exact ih st hrest
    · by_cases h1 : objectIs (lookupV st e.1) e.2 = true
      · rw [computeChanged, if_pos h1]
        exact ih st hrest
      · rw [computeChanged, if_neg h1, if_pos he]
        exact ih st hrest

/-- Claim C5: writing a value identical (`Object.is`, hence `NaN` to
`NaN`) to a field's current value records no change for the field,
leaves its stored value untouched, and notifies no listener subscribed
only to that field; and when no field of the update survives the
equality check, `set` terminates with no state change and no
notification at all. -/
theorem claim_C5 :
    (∀ (s : Store) (upd : Update) (k : Key) (v : Value),
      s.mws = [] →
      (upd.map Prod.fst).Nodup →
      (k, v) ∈ upd →
      objectIs (lookupV s.state k) v = true →
      k ∉ (computeChanged s.eqReg s.state upd).2
      ∧ lookupV (s.set upd).store.state k = lookupV s.state k
      ∧ (∀ l : Nat, (∀ k', l ∈ listenersOf s.keyListeners k' → k' = k) →
          l ∉ (s.set upd).notifs))
    ∧ (∀ (s : Store) (upd : Update),
        s.mws = [] →
        (∀ e ∈ upd, objectIs (lookupV s.state e.1) e.2 = true
          ∨ skipByEq s.eqReg e.1 (lookupV s.state e.1) e.2 = true) →
        s.set upd = ⟨s, [], [], []⟩) := by
  constructor
  · intro s upd k v hmw hnd hmem hid
    exact set_skip_entry_frame s upd k v hmw hnd hmem (Or.inl hid)
  · intro s upd hmw hall
    have hcc := computeChanged_all_skip s.eqReg upd s.state hall
    have happ : s.applyUpdate upd = (s, []) := by
      unfold Store.applyUpdate
      rw [hcc]
    rw [Store.set, if_pos (by rw [hmw]; rfl), happ]

/-- The store of the C5 witness: field `value` holds `NaN`, listener 4
subscribed to `value` only. -/
def c5store : Store :=
  ⟨[("value", Value.nan)], [("value", [4])], [], none, []⟩

/-- Witness for claim C5 at a concrete input: `set({value: NaN})` on a
field already holding `NaN` is a complete no-op. -/
theorem claim_C5_witness :
    (c5store.set [("value", Value.nan)]) = ⟨c5store, [], [], []⟩
    ∧ "value" ∉ (computeChanged c5store.eqReg c5store.state [("value", Value.nan)]).2 := by
  refine ⟨claim_C5.2 c5store [("value", Value.nan)] rfl ?_, ?_⟩
  · intro e he
    rcases List.mem_singleton.mp he with rfl
    exact Or.inl (by decide)
  · exact (claim_C5.1 c5store [("value", Value.nan)] "value" Value.nan rfl
      (by decide) (by simp) (by decide)).1

theorem armFold_pair (d : DebounceArg) (hd : d ≠ DebounceArg.fls) :
    ∀ (ks : List Key) (s0 : DStore) (out : List Nat),
      ks.foldl (debounceStep d) (s0, out)
      = (ks.foldl (fun a k => DStore.armTimer a k d) s0, out) := by
  intro ks
  induction ks with
  | nil => intro s0 out; rfl
  | cons k rest ih =>
    intro s0 out
    rw [List.foldl_cons, List.foldl_cons]
    cases d with
    | fls => exact absurd rfl hd
    | tru => exact ih (DStore.armTimer s0 k DebounceArg.tru) out
    | num n => exact ih (DStore.armTimer s0 k (DebounceArg.num n)) out

theorem armTimer_frame (s : DStore) (k : Key) (d : DebounceArg) :
    (s.armTimer k d).state = s.state
    ∧ (s.armTimer k d).keyListeners = s.keyListeners := by
  unfold DStore.armTimer
  split <;> exact ⟨rfl, rfl⟩

theorem armTimer_lookup_ne (s : DStore) (k : Key) (d : DebounceArg) (k' : Key)
    (h : k ≠ k') :
    lookupA (s.armTimer k d).pending k' = lookupA s.pending k'
    ∧ lookupA (s.armTimer k d).notifierDelay k' = lookupA s.notifierDelay k' := by
  unfold DStore.armTimer
  split
  · exact ⟨lookupA_setA_ne s.pending _ h, rfl⟩
  · exact ⟨lookupA_setA_ne s.pending _ h,
      lookupA_append_one_ne s.notifierDelay _ h⟩

theorem armTimer_self (s : DStore) (k : Key) (d : DebounceArg) :
    ∃ dl, lookupA (s.armTimer k d).notifierDelay k = some dl
      ∧ lookupA (s.armTimer k d).pending k = some dl := by
  unfold DStore.armTimer
  split
  · rename_i dl heq
    exact ⟨dl, heq, lookupA_setA_self s.pending k dl⟩
  · rename_i heq
    exact ⟨d.delay, lookupA_append_one_self s.notifierDelay k d.delay heq,
      lookupA_setA_self s.pending k d.delay⟩

theorem armFold_frame (d : DebounceArg) :
    ∀ (ks : List Key) (s0 : DStore),
      (ks.foldl (fun a k => DStore.armTimer a k d) s0).state = s0.state
      ∧ (ks.foldl (fun a k => DStore.armTimer a k d) s0).keyListeners = s0.keyListeners := by
  intro ks
  induction ks with
  | nil => intro s0; exact ⟨rfl, rfl⟩
  | cons k rest ih =>
    intro s0
    rw [List.foldl_cons]
    obtain ⟨h1, h2⟩ := ih (DStore.armTimer s0 k d)
    obtain ⟨h3, h4⟩ := armTimer_frame s0 k d
    exact ⟨h1.trans h3, h2.trans h4⟩

theorem armFold_not_mem (d : DebounceArg) :
    ∀ (ks : List Key) (s0 : DStore) (k : Key), k ∉ ks →
      lookupA (ks.foldl (fun a k' => DStore.armTimer a k' d) s0).pending k
        = lookupA s0.pending k
      ∧ lookupA (ks.foldl (fun a k' => DStore.armTimer a k' d) s0).notifierDelay k
        = lookupA s0.notifierDelay k := by
  intro ks
  induction ks with
  | nil => intro s0 k _; exact ⟨rfl, rfl⟩
  | cons k1 rest ih =>
    intro s0 k hk
    have hne : k1 ≠ k := fun h => hk (h ▸ List.mem_cons_self _ _)
    have hkr : k ∉ rest := fun h => hk (List.mem_cons_of_mem _ h)
    rw [List.foldl_cons]
    obtain ⟨h1, h2⟩ := ih (DStore.armTimer s0 k1 d) k hkr
    obtain ⟨h3, h4⟩ := armTimer_lookup_ne s0 k1 d k hne
    exact ⟨h1.trans h3, h2.trans h4⟩

theorem armFold_mem (d : DebounceArg) :
    ∀ (ks : List Key) (s0 : DStore) (k : Key), ks.Nodup → k ∈ ks →
      ∃ dl, lookupA (ks.foldl (fun a k' => DStore.armTimer a k' d) s0).notifierDelay k
          = some dl
        ∧ lookupA (ks.foldl (fun a k' => DStore.armTimer a k' d) s0).pending k = some dl := by
  intro ks
  induction ks with
  | nil => intro s0 k _ hk; simp at hk
  | cons k1 rest ih =>
    intro s0 k hnd hk
    obtain ⟨hhead, hndr⟩ := List.nodup_cons.mp hnd
    rw [List.foldl_cons]
    rcases List.mem_cons.mp hk with rfl | hk
    · obtain ⟨dl, h1, h2⟩ := armTimer_self s0 k d
      obtain ⟨h3, h4⟩ := armFold_not_mem d rest (DStore.armTimer s0 k d) k hhead
      exact ⟨dl, h4.trans h1, h3.trans h2⟩
    · exact ih (DStore.armTimer s0 k1 d) k hndr hk

theorem computeChangedD_sublist :
    ∀ (upd : Update) (st : StateRec),
      (computeChangedD st upd).2.Sublist (upd.map Prod.fst) := by
  intro upd
  induction upd with
  | nil => intro st; simp [computeChangedD]
  | cons e rest ih =>
    intro st
    rw [computeChangedD]
    by_cases h1 : strictEq (lookupV st e.1) e.2 = true
    · rw [if_pos h1]
      exact (ih st).trans (List.sublist_cons_self _ _)
    · rw [if_neg h1]
      by_cases h2 : objectIs (lookupV st e.1) e.2 = true
      · rw [if_pos h2]
        exact (ih st).trans (List.sublist_cons_self _ _)
      · rw [if_neg h2]
        exact List.Sublist.cons₂ _ (ih (setA st e.1 e.2))

theorem applyUpdateD_ne_fls (s : DStore) (upd : Update) (d : DebounceArg)
    (hd : d ≠ DebounceArg.fls) :
    DStore.applyUpdate s upd d
      = ((computeChangedD s.state upd).2.foldl (fun a k => DStore.armTimer a k d)
          { s with state := (computeChangedD s.state upd).1 }, []) := by
  unfold DStore.applyUpdate
  dsimp only
  split
  · rename_i heq
    rw [heq]
    rfl
  · exact armFold_pair d hd _ _ _

/-- Claim C9: a `set(update, delay)` that requests debouncing (a number,
or `true` meaning zero delay) commits the state mutation for every
surviving changed field synchronously — `get()` right after the call
already sees the committed values — fires no listener synchronously
(only the notification is deferred), and re-arms only the changed
fields' own per-field timers: the pending timer and memoised notifier
of every untouched field are exactly as before, while every changed
field ends with an armed timer carrying its notifier's delay. -/
theorem claim_C9 (s : DStore) (upd : Update) (d : DebounceArg)
    (hmw : s.mws = []) (hd : d ≠ DebounceArg.fls)
    (hnd : (upd.map Prod.fst).Nodup) :
    (DStore.set s upd d).store.state = (computeChangedD s.state upd).1
    ∧ (DStore.set s upd d).notifs = []
    ∧ (DStore.set s upd d).store.keyListeners = s.keyListeners
    ∧ (∀ k, k ∉ (computeChangedD s.state upd).2 →
        lookupA (DStore.set s upd d).store.pending k = lookupA s.pending k
        ∧ lookupA (DStore.set s upd d).store.notifierDelay k = lookupA s.notifierDelay k)
    ∧ (∀ k, k ∈ (computeChangedD s.state upd).2 →
        ∃ dl, lookupA (DStore.set s upd d).store.notifierDelay k = some dl
          ∧ lookupA (DStore.set s upd d).store.pending k = some dl) := by
  have hset : DStore.set s upd d
      = ⟨(DStore.applyUpdate s upd d).1, (DStore.applyUpdate s upd d).2, [], []⟩ := by
    rw [DStore.set, hmw, runChain_nil]
  rw [hset, applyUpdateD_ne_fls s upd d hd]
  refine ⟨?_, rfl, ?_, ?_, ?_⟩
  · exact (armFold_frame d (computeChangedD s.state upd).2 _).1
  · exact (armFold_frame d (computeChangedD s.state upd).2 _).2
  · intro k hk
    exact armFold_not_mem d (computeChangedD s.state upd).2 _ k hk
  · intro k hk
    have hchnd : (computeChangedD s.state upd).2.Nodup :=
      (computeChangedD_sublist upd s.state).nodup hnd
    exact armFold_mem d (computeChangedD s.state upd).2 _ k hchnd hk

/-- The store of the C9 witness: fields `a` and `b`, a pending timer of
delay 7 on `b` (with its notifier memoised), listeners on both
fields. -/
def c9store : DStore :=
  ⟨[("a", Value.num 0), ("b", Value.num 1)], [("a", [0]), ("b", [1])],
   [("b", 7)], [("b", 7)], []⟩

/-- Witness for claim C9 at a concrete input: a debounced write to `a`
with delay 3 commits synchronously, fires nothing, and leaves `b`'s
pending timer untouched. -/
theorem claim_C9_witness :
    (DStore.set c9store [("a", Value.num 5)] (DebounceArg.num 3)).store.state
      = (computeChangedD c9store.state [("a", Value.num 5)]).1
    ∧ (DStore.set c9store [("a", Value.num 5)] (DebounceArg.num 3)).notifs = []
    ∧ lookupA (DStore.set c9store [("a", Value.num 5)] (DebounceArg.num 3)).store.pending "b"
      = lookupA c9store.pending "b" := by
  have h := claim_C9 c9store [("a", Value.num 5)] (DebounceArg.num 3) rfl
    (by decide) (by decide)
  exact ⟨h.1, h.2.1, (h.2.2.2.1 "b" (by decide)).1⟩
